import Mathlib

/-!
Verification development for the BooQ analysis core
(`src-tauri/src/question_analyzer.rs` and `src-tauri/src/rag_service.rs`).

Strings are modelled as `List Char` (one entry per Unicode scalar value,
as produced by Rust's `str::chars`).  Rust's `str::len` counts UTF-8
bytes, so byte lengths are computed with `utf8Len` below.  Rust `usize` /
`u32` arithmetic is modelled on `Nat`, with wrap-around made explicit
(`w32`, and the explicit underflow case in `chunkAux`) at the places where
the source can overflow.  A `none` result models a Rust panic or a
non-terminating loop; fallible operations return `Option`/`Except`.
-/

namespace BooQ

/-- Number of bytes of the UTF-8 encoding of a scalar value; `Rust str::len`
sums this over the characters of a string. -/
def charBytes (c : Char) : Nat :=
  if c.toNat < 128 then 1
  else if c.toNat < 2048 then 2
  else if c.toNat < 65536 then 3
  else 4

/-- Rust `str::len`: UTF-8 byte length. -/
def utf8Len (l : List Char) : Nat := (l.map charBytes).sum

/-- Rust `str::to_lowercase`, modelled per character (exact on ASCII, which is
all the analysed claims exercise). -/
def toLowerStr (l : List Char) : List Char := l.map Char.toLower

/-- Rust `str::trim`: drop leading and trailing whitespace. -/
def trimChars (l : List Char) : List Char :=
  ((l.dropWhile Char.isWhitespace).reverse.dropWhile Char.isWhitespace).reverse

/-- Accumulator-based splitter behind `splitWs` (Rust `str::split_whitespace`):
`cur` holds the reversed current word. -/
def splitWsAux : List Char → List Char → List (List Char)
  | [], cur => if cur.isEmpty then [] else [cur.reverse]
  | c :: rest, cur =>
    if c.isWhitespace then
      if cur.isEmpty then splitWsAux rest [] else cur.reverse :: splitWsAux rest []
    else splitWsAux rest (c :: cur)

/-- Rust `str::split_whitespace`: maximal non-whitespace runs, empties dropped. -/
def splitWs (l : List Char) : List (List Char) := splitWsAux l []

/-- Rust `str::contains(pat)`: `pat` occurs as a contiguous substring of `s`. -/
def strContains (s pat : List Char) : Bool := decide (pat <:+: s)

/-! ## Retrieval store (`rag_service.rs`) -/

/-- Model of `rag_service::DocumentMetadata`. -/
structure DocumentMetadata where
  file_id : String
  page_number : Nat
  chunk_index : Nat
  doc_type : String
  chapter : String
  «section» : String
  deriving DecidableEq

/-- Model of `rag_service::Document`.  The `embedding` payload (`Option<Vec<f32>>` in the
source) is reserved and never read; its element type is irrelevant here. -/
structure Document where
  id : String
  content : String
  metadata : DocumentMetadata
  embedding : Option (List Int)
  deriving DecidableEq

/-- Model of `rag_service::SearchResult`.  The source stores `score : f32`; every score
the code produces is `count * weight` with `weight ∈ {1.5, 1.2, 1.0, 0.8}`, so
scores are modelled exactly as 10× fixed-point naturals (`15, 12, 10, 8`). -/
structure SearchResult where
  document : Document
  score : Nat
  deriving DecidableEq

/-- Model of `RAGStore::add_document` acting on the in-memory `documents` sequence (the
write-through `save` only mirrors this list to disk and its failure is
swallowed by the source). -/
def add_document (documents : List Document) (doc : Document) : List Document :=
  if documents.any (fun d => d.id == doc.id) then documents
  else documents ++ [doc]

/-- The `doc_type` weight table of `RAGStore::search`, 10× fixed point. -/
def typeWeight10 (doc_type : String) : Nat :=
  if doc_type == "example" then 15
  else if doc_type == "knowledge" then 12
  else if doc_type == "exercise" then 10
  else 8

/-- The lowercase whitespace-delimited query terms of `RAGStore::search`. -/
def queryWords (query : String) : List (List Char) :=
  splitWs (toLowerStr query.data)

/-- The score `RAGStore::search` assigns to one document: one point per query
term occurring as a substring of the lowercased content, times the type
weight (10× fixed point). -/
def scoreDoc (qws : List (List Char)) (d : Document) : Nat :=
  (qws.countP (fun w => strContains (toLowerStr d.content.data) w)) *
    typeWeight10 d.metadata.doc_type

/-- Insert into a descending-by-score list, before the first element whose
score is not larger; among equal scores the inserted (earlier) element comes
first, which is exactly the stable behaviour of `Vec::sort_by` with the
comparator `b.score.partial_cmp(&a.score)`. -/
def insertDesc (x : SearchResult) : List SearchResult → List SearchResult
  | [] => [x]
  | y :: ys => if y.score ≤ x.score then x :: y :: ys else y :: insertDesc x ys

/-- Stable descending-by-score sort.  `Vec::sort_by` is a stable sort and the
scores here are never NaN (they are products of naturals and fixed weights),
so the comparator is total and the source's sort produces the unique stable
descending ordering realised by this insertion sort. -/
def sortDesc : List SearchResult → List SearchResult
  | [] => []
  | x :: xs => insertDesc x (sortDesc xs)

/-- Model of `RAGStore::search`: score, drop zero scores, stable descending sort, take
`top_k`. -/
def search (documents : List Document) (query : String) (top_k : Nat) :
    List SearchResult :=
  let qws := queryWords query
  let results := (documents.map (fun d => SearchResult.mk d (scoreDoc qws d))).filter
    (fun r => decide (0 < r.score))
  (sortDesc results).take top_k

/-- The string `RAGStore::build_context` formats for one hit:
`format!("【{}】{}\n{}\n\n", doc_type, chapter_part, content)` with
`chapter_part = （chapter）` when the chapter is nonempty. -/
def docText (d : Document) : List Char :=
  "【".data ++ d.metadata.doc_type.data ++ "】".data ++
    (if d.metadata.chapter.isEmpty then []
     else "（".data ++ d.metadata.chapter.data ++ "）".data) ++
    "\n".data ++ d.content.data ++ "\n\n".data

/-- The accumulation loop of `RAGStore::build_context`: `break` on the first
hit whose token estimate would push the running count past the budget. -/
def build_context_loop (max_tokens : Nat) :
    List SearchResult → Nat → List Char → List Char
  | [], _, context => context
  | r :: rest, token_count, context =>
    let t := docText r.document
    let doc_tokens := utf8Len t / 4
    if max_tokens < token_count + doc_tokens then context
    else build_context_loop max_tokens rest (token_count + doc_tokens) (context ++ t)

/-- Model of `RAGStore::build_context`. -/
def build_context (documents : List Document) (query : String) (max_tokens : Nat) :
    List Char :=
  build_context_loop max_tokens (search documents query 10) 0 []

/-! ## Text chunker (`rag_service.rs`) -/

/-- The window `chars[start..end]` with `end = (start + chunk_size).min(len)`
taken by one iteration of `TextChunker::chunk`. -/
def windowAt (chunk_size : Nat) (chars : List Char) (start : Nat) : List Char :=
  (chars.drop start).take (min (start + chunk_size) chars.length - start)

/-- Push step `if !chunk.trim().is_empty() , chunks.push(chunk)` of the window loop. -/
def pushWindow (chunks : List (List Char)) (c : List Char) : List (List Char) :=
  if trimChars c = [] then chunks else chunks ++ [c]

/-- The `while start < chars.len()` loop of `TextChunker::chunk`, with explicit
fuel.  `none` models abnormal behaviour of the source loop: either the `usize`
underflow panic in `start = end - overlap` (when `overlap > end`), or
non-termination (no fuel bound suffices).  The source has no guard relating
`overlap` and `chunk_size`. -/
def chunkAux (chunk_size overlap : Nat) (chars : List Char) :
    Nat → Nat → List (List Char) → Option (List (List Char))
  | 0, start, chunks => if start < chars.length then none else some chunks
  | f + 1, start, chunks =>
    if start < chars.length then
      if chars.length ≤ min (start + chunk_size) chars.length then
        some (pushWindow chunks (windowAt chunk_size chars start))
      else if min (start + chunk_size) chars.length < overlap then none
      else
        chunkAux chunk_size overlap chars f
          (min (start + chunk_size) chars.length - overlap)
          (pushWindow chunks (windowAt chunk_size chars start))
    else some chunks

/-- Proposition that `TextChunker::chunk(text)` terminates normally: some fuel bound makes the
loop finish without panicking. -/
def chunkTerminates (chunk_size overlap : Nat) (text : List Char) : Prop :=
  ∃ fuel r, chunkAux chunk_size overlap text fuel 0 [] = some r

/-- Rust `text.split("\n\n")`: split on non-overlapping occurrences of the
two-newline separator, scanning left to right, keeping empty parts. -/
def splitOnNN : List Char → List (List Char)
  | [] => [[]]
  | '\n' :: '\n' :: rest => [] :: splitOnNN rest
  | c :: rest =>
    match splitOnNN rest with
    | [] => [[c]]
    | p :: ps => (c :: p) :: ps

/-- One iteration of the paragraph loop of `TextChunker::chunk_by_paragraph`:
`acc = (chunks so far, current buffer)`.  The flush condition compares
`current.len() + para.len()` with `chunk_size` and does not count the
two-byte `"\n\n"` joiner appended on the other branch. -/
def cbpStep (chunk_size : Nat) (acc : List (List Char) × List Char)
    (para : List Char) : List (List Char) × List Char :=
  if chunk_size < utf8Len acc.2 + utf8Len para then
    (if trimChars acc.2 = [] then acc.1 else acc.1 ++ [acc.2], para)
  else
    (acc.1, if acc.2 = [] then para else acc.2 ++ '\n' :: '\n' :: para)

/-- Model of `TextChunker::chunk_by_paragraph`. -/
def chunk_by_paragraph (chunk_size : Nat) (text : List Char) : List (List Char) :=
  let r := (splitOnNN text).foldl (cbpStep chunk_size) ([], [])
  if trimChars r.2 = [] then r.1 else r.1 ++ [r.2]

/-! ## Response parser (`question_analyzer.rs`) -/

/-- Rust `str::rfind(c)`: position of the last occurrence of `c`. -/
def rfindIdx (text : List Char) (c : Char) : Option Nat :=
  match text.reverse.findIdx? (· == c) with
  | some i => some (text.length - 1 - i)
  | none => none

/-- Model of `question_analyzer::extract_json`.  The source slices
`text[start..=end]` with the byte index `start` of the first `'\x7b'` and the
byte index `end` of the last `'\x7d'`; both braces are one-byte characters, so
character positions order exactly as the byte positions do and the slice is
the character range `[start, end]`.  Rust panics when `start > end + 1`
(slice start past slice end); `none` models that panic.  When `start = end + 1`
the slice is the empty string. -/
def extract_json (text : List Char) : Option (List Char) :=
  match text.findIdx? (· == '\x7b') with
  | some start =>
    match rfindIdx text '\x7d' with
    | some e =>
      if start ≤ e + 1 then some ((text.drop start).take (e + 1 - start))
      else none
    | none => some text
  | none => some text

/-! ## Pipeline orchestrator (`question_analyzer.rs`) -/

/-- Wrap-around of `u32` arithmetic. -/
def w32 (n : Nat) : Nat := n % 4294967296

/-- The batch loop of `start_analysis`:
`while current_batch_start <= total_pages`, with
`batch_end = (current_batch_start + batch_size - 1).min(total_pages)` and
`current_batch_start = batch_end + 1`.  The `u32` additions wrap (the `- 1`
is written as `+ 4294967295` under `w32`, which agrees with two's-complement
subtraction since the sum is positive whenever the loop runs).  Fuel makes the
recursion structural; `none` means the fuel bound was exhausted. -/
def batchLoop (batch_size total_pages : Nat) : Nat → Nat → Option (List (Nat × Nat))
  | 0, start => if start ≤ total_pages then none else some []
  | f + 1, start =>
    if start ≤ total_pages then
      let e := min (w32 (start + batch_size + 4294967295)) total_pages
      (batchLoop batch_size total_pages f (w32 (e + 1))).map
        (fun rest => (start, e) :: rest)
    else some []

/-- The batch ranges `start_analysis` iterates over:
`batch_size = if total_pages > 400 { 20 } else { total_pages }`.  The fuel
`total_pages + 1` is sufficient whenever the loop terminates without `u32`
overflow. -/
def pageBatches (total_pages : Nat) : Option (List (Nat × Nat)) :=
  let batch_size := if 400 < total_pages then 20 else total_pages
  batchLoop batch_size total_pages (total_pages + 1) 1

/-! ## Cancellation model (`start_analysis`, `stop_analysis`)

The mutex-guarded critical sections of the run are serialised atomic events:
`ckpt` is a `should_stop` check (batch entry, line 98, or page entry,
line 122), `upd` is an in-loop `update_progress(_, "analyzing", ...)` call
(batch header, line 110, or per-page, line 164), `write` is the
`all_questions.json` snapshot write (line 222) and `complete` the final
`update_progress(_, "completed", ...)` (line 225).  A `stop_analysis` call can
be interleaved between any two events. -/

/-- One serialised critical section of the running analysis. -/
inductive AEvent where
  | ckpt
  | upd
  | write
  | complete
  deriving DecidableEq

/-- The state a run and its session registry entry share: the progress
`status` string, the `should_stop` flag and whether the result snapshot has
been (over)written.  The remaining progress fields (`current_page`,
`questions_found`, `message`, ...) do not influence the analysed claim. -/
structure RunState where
  status : String
  should_stop : Bool
  snapshot_written : Bool
  deriving DecidableEq

/-- Execute the remaining events of the run: a `ckpt` returns early (drops
every later event) when `should_stop` is set, mirroring the
`return Ok(())` at lines 102 and 126. -/
def runEvents : List AEvent → RunState → RunState
  | [], s => s
  | e :: rest, s =>
    match e with
    | .ckpt => if s.should_stop then s else runEvents rest s
    | .upd => runEvents rest { s with status := "analyzing" }
    | .write => runEvents rest { s with snapshot_written := true }
    | .complete => runEvents rest { s with status := "completed" }

/-- Model of `stop_analysis`: set `should_stop` and immediately set
`status = "stopped"`. -/
def stop_analysis (s : RunState) : RunState :=
  { s with should_stop := true, status := "stopped" }

/-- The state after `start_analysis` registers the session
(`status = "analyzing"`, `should_stop = false`) and before the batch loop. -/
def initRunState : RunState := ⟨"analyzing", false, false⟩

/-- Events of one page: the page-entry checkpoint, then — only when the page
text is nonempty (`has_content`) — the per-page progress update; the OCR/AI
calls themselves touch no shared state. -/
def pageEvents (has_content : Bool) : List AEvent :=
  .ckpt :: (if has_content then [.upd] else [])

/-- Events of one batch `[b.1, b.2]`: batch-entry checkpoint, batch progress
update, then the pages in ascending order. -/
def batchEvents (content : Nat → Bool) (b : Nat × Nat) : List AEvent :=
  .ckpt :: .upd ::
    (List.range' b.1 (b.2 + 1 - b.1)).flatMap (fun p => pageEvents (content p))

/-- The full event trace of a run over `total_pages` pages whose page `p` has
nonempty text iff `content p`. -/
def analysisEvents (total_pages : Nat) (content : Nat → Bool) : List AEvent :=
  ((pageBatches total_pages).getD []).flatMap (batchEvents content) ++
    [.write, .complete]

/-- The final shared state when `stop_analysis` runs after exactly `k` events
of the trace. -/
def runWithStopAt (total_pages : Nat) (content : Nat → Bool) (k : Nat) : RunState :=
  let evs := analysisEvents total_pages content
  runEvents (evs.drop k) (stop_analysis (runEvents (evs.take k) initRunState))

/-! ## Question queries (`question_analyzer.rs`, `commands.rs`) -/

/-- Model of `commands::Question`. -/
structure Question where
  id : String
  file_id : String
  question_type : String
  chapter : String
  «section» : String
  knowledge_points : List String
  question_text : String
  answer : String
  analysis : String
  page_number : Nat
  has_original_answer : Bool
  deriving DecidableEq

/-- Model of `get_questions`: `snapshot_file` is the content of
`questions/all_questions.json` when that file exists, and `parse` is the
(abstract) strict JSON deserialisation, which may fail. -/
def get_questions (snapshot_file : Option String)
    (parse : String → Except String (List Question)) :
    Except String (List Question) :=
  match snapshot_file with
  | some content => parse content
  | none => Except.ok []

/-- Model of `get_question_detail`: first `get_questions`, then find by id,
`题目不存在` ("question does not exist") when absent. -/
def get_question_detail (snapshot_file : Option String)
    (parse : String → Except String (List Question)) (question_id : String) :
    Except String Question :=
  match get_questions snapshot_file parse with
  | Except.ok qs =>
    match qs.find? (fun q => q.id == question_id) with
    | some q => Except.ok q
    | none => Except.error "题目不存在"
  | Except.error e => Except.error e

/-! ## Concrete stores and documents used by the examples -/

/-- An `example`-typed fragment with a 3-byte content matching query `"q"`;
its formatted `docText` is 19 bytes, a token estimate of `19 / 4 = 4`. -/
def docQab : Document := ⟨"d1", "qab", ⟨"f", 1, 0, "example", "", ""⟩, none⟩

/-- A second such fragment with a distinct id. -/
def docQcd : Document := ⟨"d2", "qcd", ⟨"f", 1, 0, "example", "", ""⟩, none⟩

/-- D1 of the ranking example: a `knowledge` fragment. -/
def docDeriv1 : Document :=
  ⟨"d1", "the derivative of x", ⟨"f", 1, 0, "knowledge", "", ""⟩, none⟩

/-- D2 of the ranking example: an `example` fragment. -/
def docDeriv2 : Document :=
  ⟨"d2", "the derivative of x^2", ⟨"f", 1, 0, "example", "", ""⟩, none⟩

/-- A plain document for the `add_document` example. -/
def demoDoc : Document := ⟨"q1", "content", ⟨"f", 1, 0, "knowledge", "", ""⟩, none⟩

/-! ## C6 — `add_document` idempotence -/

/-- C6: on a store with pairwise distinct ids, `add_document` is a no-op when
the incoming id already exists, and appends exactly the new document at the
end when the id is fresh; so it is idempotent under retries and preserves id
uniqueness. -/
theorem c6_add_document_idempotent (documents : List Document) (doc : Document)
    (_hids : documents.Pairwise (fun a b => a.id ≠ b.id)) :
    (documents.any (fun d => d.id == doc.id) = true →
      add_document documents doc = documents) ∧
    (documents.any (fun d => d.id == doc.id) = false →
      add_document documents doc = documents ++ [doc]) := by
  constructor
  · intro h
    simp [add_document, h]
  · intro h
    simp [add_document, h]

/-- Witness for C6 at a concrete store: re-adding `demoDoc` leaves the
singleton store unchanged, and adding it to the empty store appends it. -/
theorem c6_add_document_idempotent_witness :
    add_document [demoDoc] demoDoc = [demoDoc] ∧
    add_document [] demoDoc = [demoDoc] :=
  ⟨(c6_add_document_idempotent [demoDoc] demoDoc (by simp)).1 (by decide),
   (c6_add_document_idempotent [] demoDoc (by simp)).2 (by decide)⟩

/-! ## C8 / C9 — `extract_json` -/

/-- C8 (amended): when the input contains a `'\x7b'` and the last `'\x7d'` is
at or after the first `'\x7b'`, `extract_json` returns the inclusive substring
between those two positions; when the input contains no `'\x7b'` it is
returned unchanged; and the two concrete examples of the specification hold. -/
theorem c8_extract_json_slice :
    (∀ (text : List Char) (i j : Nat),
        text.findIdx? (· == '\x7b') = some i →
        rfindIdx text '\x7d' = some j → i ≤ j →
        extract_json text = some ((text.drop i).take (j + 1 - i))) ∧
    (∀ text : List Char,
        text.findIdx? (· == '\x7b') = none → extract_json text = some text) ∧
    extract_json ("prefix \x7b\"a\":1\x7d suffix".data) =
      some ("\x7b\"a\":1\x7d".data) ∧
    extract_json ("no braces".data) = some ("no braces".data) := by
  refine ⟨?_, ?_, by decide, by decide⟩
  · intro text i j h1 h2 hij
    unfold extract_json
    rw [h1, h2]
    dsimp only
    rw [if_pos (by omega)]
  · intro text h1
    unfold extract_json
    rw [h1]

/-- Witness for C8 at `"a\x7bb\x7d"`: first `'\x7b'` at 1, last `'\x7d'` at 3,
so the slice `"\x7bb\x7d"` is returned. -/
theorem c8_extract_json_slice_witness :
    extract_json ("a\x7bb\x7d".data) = some ("\x7bb\x7d".data) :=
  c8_extract_json_slice.1 ("a\x7bb\x7d".data) 1 3 (by decide) (by decide)
    (by decide)

/-- Counterexample to C8 as stated: `"\x7dx\x7b"` contains a `'\x7b'`, yet
`extract_json` does not return any substring — the source slices
`text[2..=0]`, which panics (`none`). -/
theorem c8_counterexample :
    '\x7b' ∈ ("\x7dx\x7b".data) ∧ extract_json ("\x7dx\x7b".data) = none := by
  decide

/-- C9: at the failing input `"\x7dx\x7b"` (last `'\x7d'` more than one
position before the first `'\x7b'`), `extract_json` panics — the byte-slice
`text[start..=end]` has `start = 2 > end + 1 = 1` — instead of returning a
string. -/
theorem c9_extract_json_panics : extract_json ("\x7dx\x7b".data) = none := by
  decide

/-! ## C10 — queries on a missing snapshot -/

/-- C10: when the result snapshot file does not exist, `get_questions`
returns the empty list (not an error), and therefore `get_question_detail`
fails with the not-found error for every question id. -/
theorem c10_missing_snapshot (parse : String → Except String (List Question))
    (question_id : String) :
    get_questions none parse = Except.ok [] ∧
    get_question_detail none parse question_id = Except.error "题目不存在" :=
  ⟨rfl, rfl⟩

/-! ## C3 — `build_context` token budget -/

/-- The accumulation loop of `build_context` appends a prefix of the formatted
hits whole, keeping the running `Σ (len / 4)` estimate within budget (or
appending nothing at all). -/
theorem build_context_loop_spec (m : Nat) :
    ∀ (rs : List SearchResult) (tc : Nat) (ctx : List Char),
      ∃ hits : List (List Char),
        hits <+: rs.map (fun r => docText r.document) ∧
        build_context_loop m rs tc ctx = ctx ++ hits.flatten ∧
        (hits = [] ∨ tc + (hits.map (fun t => utf8Len t / 4)).sum ≤ m) := by
  intro rs
  induction rs with
  | nil =>
      intro tc ctx
      exact ⟨[], by simp, by simp [build_context_loop], Or.inl rfl⟩
  | cons r rest ih =>
      intro tc ctx
      by_cases h : m < tc + utf8Len (docText r.document) / 4
      · refine ⟨[], by simp, ?_, Or.inl rfl⟩
        simp [build_context_loop, if_pos h]
      · obtain ⟨hits, hpre, heq, hsum⟩ :=
          ih (tc + utf8Len (docText r.document) / 4) (ctx ++ docText r.document)
        refine ⟨docText r.document :: hits, ?_, ?_, Or.inr ?_⟩
        · exact (List.cons_prefix_cons).mpr ⟨rfl, hpre⟩
        · simp only [build_context_loop, if_neg h]
          rw [heq]
          simp
        · rcases hsum with h0 | hs
          · subst h0
            simp only [List.map_nil, List.sum_nil, List.map_cons, List.sum_cons]
            omega
          · simp only [List.map_cons, List.sum_cons]
            omega

/-- C3 (amended): `build_context` output is the concatenation of a prefix of
the formatted search hits — a hit that would push the running estimate past
`max_tokens` is excluded entirely, never truncated — and the running estimate
`Σ (utf8Len hit / 4)` over the appended hits never exceeds `max_tokens` (the
output's own `length / 4` may still exceed it, because each per-hit estimate
rounds down). -/
theorem c3_build_context_budget (documents : List Document) (query : String)
    (max_tokens : Nat) :
    ∃ hits : List (List Char),
      hits <+: (search documents query 10).map (fun r => docText r.document) ∧
      build_context documents query max_tokens = hits.flatten ∧
      (hits.map (fun t => utf8Len t / 4)).sum ≤ max_tokens := by
  obtain ⟨hits, h1, h2, h3⟩ :=
    build_context_loop_spec max_tokens (search documents query 10) 0 []
  refine ⟨hits, h1, by simpa using h2, ?_⟩
  rcases h3 with h | h
  · simp [h]
  · omega

/-- Counterexample to C3 as stated: two 19-byte formatted hits have token
estimate `4` each, so both fit a budget of `8`, but the returned 38-byte
string has `38 / 4 = 9 > 8`. -/
theorem c3_counterexample :
    ¬ (utf8Len (build_context [docQab, docQcd] "q" 8) / 4 ≤ 8) := by
  decide

/-! ## C4 — `chunk` termination -/

/-- With `overlap < chunk_size` every loop iteration advances `start` by at
least one, so fuel `chars.length - start + 1` (here: any fuel exceeding the
remaining distance) suffices and the loop neither panics nor diverges. -/
theorem chunkAux_isSome (chunk_size overlap : Nat) (chars : List Char)
    (hov : overlap < chunk_size) :
    ∀ (fuel start : Nat) (chunks : List (List Char)),
      chars.length < start + fuel →
      ∃ r, chunkAux chunk_size overlap chars fuel start chunks = some r := by
  intro fuel
  induction fuel with
  | zero =>
      intro start chunks h
      refine ⟨chunks, ?_⟩
      simp only [chunkAux]
      rw [if_neg (by omega)]
  | succ f ih =>
      intro start chunks h
      by_cases hs : start < chars.length
      · simp only [chunkAux]
        rw [if_pos hs]
        by_cases hend : chars.length ≤ min (start + chunk_size) chars.length
        · rw [if_pos hend]
          exact ⟨_, rfl⟩
        · rw [if_neg hend, if_neg (by omega)]
          exact ih (min (start + chunk_size) chars.length - overlap) _ (by omega)
      · refine ⟨chunks, ?_⟩
        simp only [chunkAux]
        rw [if_neg hs]

/-- C4 (amended): the source has no guard — `TextChunker::new` accepts every
`(chunk_size, overlap)` pair and `chunk` never rejects a call — but whenever
`overlap < chunk_size` (as at the only call site, `TextChunker::new(1000,
100)`), `chunk` terminates normally on every text. -/
theorem c4_chunk_terminates (chunk_size overlap : Nat) (text : List Char)
    (h : overlap < chunk_size) : chunkTerminates chunk_size overlap text :=
  match chunkAux_isSome chunk_size overlap text h (text.length + 1) 0 []
      (by omega) with
  | ⟨r, hr⟩ => ⟨text.length + 1, r, hr⟩

/-- Witness for C4: `chunk_size = 2`, `overlap = 1` terminates on `"abc"`. -/
theorem c4_chunk_terminates_witness :
    1 < 2 ∧ chunkTerminates 2 1 ("abc".data) :=
  ⟨by decide, c4_chunk_terminates 2 1 ("abc".data) (by decide)⟩

/-- With `chunk_size = overlap = 1` on `"ab"` the loop never advances:
`start = 0`, `end = 1`, `start = end - overlap = 0` again, for every fuel. -/
theorem chunkAux_one_one_none :
    ∀ (fuel : Nat) (chunks : List (List Char)),
      chunkAux 1 1 ("ab".data) fuel 0 chunks = none := by
  intro fuel
  induction fuel with
  | zero =>
      intro chunks
      simp only [chunkAux]
      rw [if_pos (by decide)]
  | succ f ih =>
      intro chunks
      simp only [chunkAux]
      rw [if_pos (by decide), if_neg (by decide), if_neg (by decide)]
      have hidx : min (0 + 1) ("ab".data).length - 1 = 0 := by decide
      rw [hidx]
      exact ih _

/-! ## C5 — `search` ranking -/

/-- Membership in an `insertDesc` insertion. -/
theorem mem_insertDesc (x a : SearchResult) :
    ∀ l : List SearchResult, a ∈ insertDesc x l ↔ a = x ∨ a ∈ l := by
  intro l
  induction l with
  | nil => simp [insertDesc]
  | cons y ys ih =>
      simp only [insertDesc]
      by_cases h : y.score ≤ x.score
      · rw [if_pos h]
        simp
      · rw [if_neg h]
        simp only [List.mem_cons, ih]
        tauto

/-- Membership is preserved by the stable sort. -/
theorem mem_sortDesc (a : SearchResult) :
    ∀ l : List SearchResult, a ∈ sortDesc l ↔ a ∈ l := by
  intro l
  induction l with
  | nil => simp [sortDesc]
  | cons x xs ih => simp [sortDesc, mem_insertDesc, ih]

/-- Insertion via `insertDesc` preserves the descending-by-score ordering. -/
theorem pairwise_insertDesc (x : SearchResult) :
    ∀ l : List SearchResult, l.Pairwise (fun a b => b.score ≤ a.score) →
      (insertDesc x l).Pairwise (fun a b => b.score ≤ a.score) := by
  intro l
  induction l with
  | nil =>
      intro _
      simp [insertDesc]
  | cons y ys ih =>
      intro hp
      have hp' := List.pairwise_cons.mp hp
      simp only [insertDesc]
      by_cases h : y.score ≤ x.score
      · rw [if_pos h]
        refine List.pairwise_cons.mpr ⟨?_, hp⟩
        intro b hb
        rcases List.mem_cons.mp hb with rfl | hbys
        · exact h
        · exact le_trans (hp'.1 b hbys) h
      · rw [if_neg h]
        refine List.pairwise_cons.mpr ⟨?_, ih hp'.2⟩
        intro b hb
        rcases (mem_insertDesc x b ys).mp hb with rfl | hbys
        · omega
        · exact hp'.1 b hbys

/-- The stable sort is descending by score. -/
theorem pairwise_sortDesc :
    ∀ l : List SearchResult,
      (sortDesc l).Pairwise (fun a b => b.score ≤ a.score) := by
  intro l
  induction l with
  | nil => simp [sortDesc]
  | cons x xs ih => exact pairwise_insertDesc x _ ih

/-- Stability of `insertDesc`: restricted to any one score value, insertion
puts the new (earlier) element first and keeps the rest in order. -/
theorem filter_score_insertDesc (s : Nat) (x : SearchResult) :
    ∀ l : List SearchResult,
      (insertDesc x l).filter (fun r => r.score == s) =
        ((x :: l).filter (fun r => r.score == s)) := by
  intro l
  induction l with
  | nil => rfl
  | cons y ys ih =>
      simp only [insertDesc]
      by_cases h : y.score ≤ x.score
      · rw [if_pos h]
      · rw [if_neg h]
        simp only [List.filter_cons, ih]
        by_cases hy : y.score = s
        · have hx : ¬ x.score = s := by omega
          simp [hy, hx]
        · simp [hy]

/-- Stability of the sort: restricted to any one score value, `sortDesc`
preserves the original (insertion) order. -/
theorem filter_score_sortDesc (s : Nat) :
    ∀ l : List SearchResult,
      (sortDesc l).filter (fun r => r.score == s) =
        l.filter (fun r => r.score == s) := by
  intro l
  induction l with
  | nil => rfl
  | cons x xs ih =>
      simp only [sortDesc]
      rw [filter_score_insertDesc]
      simp only [List.filter_cons, ih]

/-- Ties are resolved by insertion order: restricted to any single score
value, the results of `search` list their documents as an order-preserving
subsequence of the store. -/
theorem search_stable (documents : List Document) (query : String)
    (top_k s : Nat) :
    List.Sublist (((search documents query top_k).filter
      (fun r => r.score == s)).map SearchResult.document) documents := by
  simp only [search]
  set f := fun d => SearchResult.mk d (scoreDoc (queryWords query) d) with hf
  set results := (documents.map f).filter (fun r => decide (0 < r.score))
    with hres
  have h1 : List.Sublist
      (((sortDesc results).take top_k).filter (fun r => r.score == s))
      ((sortDesc results).filter (fun r => r.score == s)) :=
    List.Sublist.filter _ (List.take_sublist _ _)
  rw [filter_score_sortDesc] at h1
  have h2 : List.Sublist (results.filter (fun r => r.score == s)) results :=
    List.filter_sublist _
  have h3 : List.Sublist results (documents.map f) := by
    rw [hres]
    exact List.filter_sublist _
  have h4 := ((h1.trans h2).trans h3).map SearchResult.document
  simpa [hf, Function.comp_def, List.map_id] using h4

/-- C5: `search` returns at most `top_k` results, none with score zero, each
scored as (number of lowercase whitespace-delimited query terms occurring in
the lowercased content) × doc-type weight (`example` 1.5, `knowledge` 1.2,
`exercise` 1.0, other 0.8 — here in exact 10× fixed point), sorted descending
with ties kept in insertion order (the per-score restriction of the output is
a sublist of the store); and on D1(knowledge)/D2(example) with query
`"derivative x"`, D2 (score 3.0) ranks above D1 (score 2.4). -/
theorem c5_search_ranking :
    (∀ (documents : List Document) (query : String) (top_k : Nat),
      (search documents query top_k).length ≤ top_k ∧
      (∀ r ∈ search documents query top_k, 0 < r.score) ∧
      (∀ r ∈ search documents query top_k,
        r.score = scoreDoc (queryWords query) r.document) ∧
      (search documents query top_k).Pairwise (fun a b => b.score ≤ a.score) ∧
      (∀ s : Nat,
        List.Sublist (((search documents query top_k).filter
          (fun r => r.score == s)).map SearchResult.document) documents)) ∧
    search [docDeriv1, docDeriv2] "derivative x" 2 =
      [⟨docDeriv2, 30⟩, ⟨docDeriv1, 24⟩] := by
  constructor
  · intro documents query top_k
    refine ⟨?_, ?_, ?_, ?_, ?_⟩
    · simp only [search]
      exact List.length_take_le _ _
    · intro r hr
      simp only [search] at hr
      have h1 := List.take_subset _ _ hr
      rw [mem_sortDesc] at h1
      have h2 := List.mem_filter.mp h1
      simpa using h2.2
    · intro r hr
      simp only [search] at hr
      have h1 := List.take_subset _ _ hr
      rw [mem_sortDesc] at h1
      have h2 := (List.mem_filter.mp h1).1
      obtain ⟨d, _, rfl⟩ := List.mem_map.mp h2
      rfl
    · simp only [search]
      exact List.Pairwise.sublist (List.take_sublist _ _) (pairwise_sortDesc _)
    · intro s
      exact search_stable documents query top_k s
  · decide

/-- Witness for C5: the top-ranked concrete result carries exactly the score
`search` computes for its document. -/
theorem c5_search_ranking_witness :
    (SearchResult.mk docDeriv2 30).score =
      scoreDoc (queryWords "derivative x")
        (SearchResult.mk docDeriv2 30).document :=
  (c5_search_ranking.1 [docDeriv1, docDeriv2] "derivative x" 2).2.2.1
    ⟨docDeriv2, 30⟩ (by decide)

/-- Counterexample to C4 as stated: the call `chunk` with `chunk_size = 1`,
`overlap = 1` (so `overlap` not strictly less than size) is not rejected —
there is no guard — and on `"ab"` it runs forever: no fuel bound returns. -/
theorem c4_counterexample : ¬ chunkTerminates 1 1 ("ab".data) := by
  rintro ⟨fuel, r, hr⟩
  rw [chunkAux_one_one_none fuel []] at hr
  cases hr

/-! ## C7 — `chunk_by_paragraph` size bound -/

/-- Byte length is additive. -/
theorem utf8Len_append (a b : List Char) :
    utf8Len (a ++ b) = utf8Len a + utf8Len b := by
  simp [utf8Len]

/-- Rust `split("\n\n")` always yields at least one part, the first part is a
prefix of the text, and no part contains the `"\n\n"` separator. -/
theorem splitOnNN_parts : ∀ t : List Char,
    (∃ p ps, splitOnNN t = p :: ps ∧ p <+: t) ∧
    (∀ p ∈ splitOnNN t, ¬ ['\n', '\n'] <:+: p) := by
  intro t
  induction t using splitOnNN.induct with
  | case1 =>
      refine ⟨⟨[], [], rfl, List.nil_prefix⟩, ?_⟩
      intro p hp
      rw [splitOnNN.eq_1, List.mem_singleton] at hp
      subst hp
      simp
  | case2 rest ih =>
      rw [splitOnNN.eq_2]
      refine ⟨⟨[], splitOnNN rest, rfl, List.nil_prefix⟩, ?_⟩
      intro p hp
      rcases List.mem_cons.mp hp with rfl | hmem
      · simp
      · exact ih.2 p hmem
  | case3 c rest hcond heq ih =>
      exfalso
      obtain ⟨p, ps, hps, -⟩ := ih.1
      rw [heq] at hps
      cases hps
  | case4 c rest hcond p ps heq ih =>
      rw [splitOnNN.eq_3 c rest hcond, heq]
      dsimp only
      obtain ⟨p0, ps0, hps0, hpre0⟩ := ih.1
      rw [heq] at hps0
      injection hps0 with hpp hpps
      subst hpp
      refine ⟨⟨c :: p, ps, rfl, List.cons_prefix_cons.mpr ⟨rfl, hpre0⟩⟩, ?_⟩
      intro q hq
      rcases List.mem_cons.mp hq with rfl | hmem
      · intro hinf
        rcases List.infix_cons_iff.mp hinf with hpref | hinf2
        · obtain ⟨hc, htail⟩ := List.cons_prefix_cons.mp hpref
          obtain ⟨r1, hr1⟩ := htail.trans hpre0
          exact hcond r1 hc.symm hr1.symm
        · exact ih.2 p (by rw [heq]; exact List.mem_cons_self _ _) hinf2
      · exact ih.2 q (by rw [heq]; exact List.mem_cons_of_mem _ hmem)

/-- Invariant of the paragraph loop: every emitted chunk, and the running
buffer, is either within `chunk_size + 2` bytes or a single separator-free
paragraph. -/
theorem cbp_foldl_bound (chunk_size : Nat) :
    ∀ (paras chunks : List (List Char)) (cur : List Char),
      (∀ c ∈ chunks, utf8Len c ≤ chunk_size + 2 ∨ ¬ ['\n', '\n'] <:+: c) →
      (utf8Len cur ≤ chunk_size + 2 ∨ ¬ ['\n', '\n'] <:+: cur) →
      (∀ p ∈ paras, ¬ ['\n', '\n'] <:+: p) →
      ((∀ c ∈ (paras.foldl (cbpStep chunk_size) (chunks, cur)).1,
          utf8Len c ≤ chunk_size + 2 ∨ ¬ ['\n', '\n'] <:+: c) ∧
        (utf8Len (paras.foldl (cbpStep chunk_size) (chunks, cur)).2 ≤
            chunk_size + 2 ∨
          ¬ ['\n', '\n'] <:+: (paras.foldl (cbpStep chunk_size) (chunks, cur)).2)) := by
  intro paras
  induction paras with
  | nil =>
      intro chunks cur hch hcur _
      exact ⟨hch, hcur⟩
  | cons p ps ih =>
      intro chunks cur hch hcur hpar
      have hp : ¬ ['\n', '\n'] <:+: p := hpar p (List.mem_cons_self _ _)
      have hps : ∀ q ∈ ps, ¬ ['\n', '\n'] <:+: q :=
        fun q hq => hpar q (List.mem_cons_of_mem _ hq)
      rw [List.foldl_cons]
      by_cases hcond : chunk_size < utf8Len cur + utf8Len p
      · have hstep : cbpStep chunk_size (chunks, cur) p =
            (if trimChars cur = [] then chunks else chunks ++ [cur], p) := by
          simp [cbpStep, hcond]
        rw [hstep]
        apply ih
        · intro c hc
          by_cases htr : trimChars cur = []
          · rw [if_pos htr] at hc
            exact hch c hc
          · rw [if_neg htr] at hc
            rcases List.mem_append.mp hc with h | h
            · exact hch c h
            · rw [List.mem_singleton] at h
              subst h
              exact hcur
        · exact Or.inr hp
        · exact hps
      · have hstep : cbpStep chunk_size (chunks, cur) p =
            (chunks, if cur = [] then p else cur ++ '\n' :: '\n' :: p) := by
          simp [cbpStep, hcond]
        rw [hstep]
        apply ih
        · exact hch
        · by_cases hemp : cur = []
          · rw [if_pos hemp]
            exact Or.inr hp
          · rw [if_neg hemp]
            left
            have hlen : utf8Len (cur ++ '\n' :: '\n' :: p) =
                utf8Len cur + (utf8Len p + 2) := by
              rw [utf8Len_append]
              have : utf8Len ('\n' :: '\n' :: p) = utf8Len p + 2 := by
                simp [utf8Len, charBytes]
                omega
              omega
            omega
        · exact hps

/-- C7 (amended): every chunk of `chunk_by_paragraph` either is at most
`max_size + 2` bytes long — the flush check ignores the two-byte `"\n\n"`
joiner, so a multi-paragraph chunk can exceed `max_size` by up to 2 — or is a
single (separator-free) oversized paragraph; and
`chunk_by_paragraph("A\n\nB\n\nC")` with `max_size ≥ 7` returns the single
chunk `"A\n\nB\n\nC"`. -/
theorem c7_chunk_by_paragraph_bound :
    (∀ (chunk_size : Nat) (text : List Char),
      ∀ c ∈ chunk_by_paragraph chunk_size text,
        utf8Len c ≤ chunk_size + 2 ∨ ¬ ['\n', '\n'] <:+: c) ∧
    (∀ s : Nat, 7 ≤ s →
      chunk_by_paragraph s ("A\n\nB\n\nC".data) = [("A\n\nB\n\nC".data)]) := by
  constructor
  · intro chunk_size text c hc
    have hinv := cbp_foldl_bound chunk_size (splitOnNN text) [] []
      (by intro c hc; cases hc) (Or.inl (by simp [utf8Len]))
      (fun p hp => (splitOnNN_parts text).2 p hp)
    simp only [chunk_by_paragraph] at hc
    by_cases htr :
        trimChars ((splitOnNN text).foldl (cbpStep chunk_size) ([], [])).2 = []
    · rw [if_pos htr] at hc
      exact hinv.1 c hc
    · rw [if_neg htr] at hc
      rcases List.mem_append.mp hc with h | h
      · exact hinv.1 c h
      · rw [List.mem_singleton] at h
        subst h
        exact hinv.2
  · intro s hs
    have hsplit : splitOnNN ("A\n\nB\n\nC".data) = [['A'], ['B'], ['C']] := by
      decide
    have e1 : utf8Len ([] : List Char) = 0 := rfl
    have e2 : utf8Len ['A'] = 1 := rfl
    have e3 : utf8Len ['B'] = 1 := rfl
    have e4 : utf8Len ['A', '\n', '\n', 'B'] = 4 := rfl
    have e5 : utf8Len ['C'] = 1 := rfl
    have h1 : cbpStep s ([], []) ['A'] = ([], ['A']) := by
      dsimp only [cbpStep]
      rw [if_neg (by omega)]
      simp
    have h2 : cbpStep s ([], ['A']) ['B'] = ([], ['A', '\n', '\n', 'B']) := by
      dsimp only [cbpStep]
      rw [if_neg (by omega)]
      decide
    have h3 : cbpStep s ([], ['A', '\n', '\n', 'B']) ['C'] =
        ([], "A\n\nB\n\nC".data) := by
      dsimp only [cbpStep]
      rw [if_neg (by omega)]
      decide
    simp only [chunk_by_paragraph, hsplit, List.foldl_cons, List.foldl_nil,
      h1, h2, h3]
    rw [if_neg (by decide)]
    decide

/-- Witness for C7: at `max_size = 7` the example text stays one chunk. -/
theorem c7_chunk_by_paragraph_bound_witness :
    chunk_by_paragraph 7 ("A\n\nB\n\nC".data) = [("A\n\nB\n\nC".data)] :=
  c7_chunk_by_paragraph_bound.2 7 (by decide)

/-- Counterexample to C7 as stated: with `max_size = 5`, the text
`"ab\n\ncde"` (paragraphs `"ab"` and `"cde"`, `2 + 3 ≤ 5` so they are joined
with the uncounted two-byte `"\n\n"`) comes back as a single 7-byte chunk that
is longer than `max_size` yet is not a single paragraph. -/
theorem c7_counterexample :
    chunk_by_paragraph 5 ("ab\n\ncde".data) = [("ab\n\ncde".data)] ∧
    5 < utf8Len ("ab\n\ncde".data) ∧
    ['\n', '\n'] <:+: ("ab\n\ncde".data) := by
  decide

/-! ## C2 — page batching -/

/-- The batch loop stops immediately once `start` passes `total_pages`,
whatever the fuel. -/
theorem batchLoop_gt (batch_size total_pages fuel start : Nat)
    (h : total_pages < start) :
    batchLoop batch_size total_pages fuel start = some [] := by
  cases fuel with
  | zero =>
      simp only [batchLoop]
      rw [if_neg (by omega)]
  | succ f =>
      simp only [batchLoop]
      rw [if_neg (by omega)]

/-- The `batch_size = 20` loop from any start: enough fuel yields the batch
list that partitions `[start, total]` into blocks of at most 20 pages,
`ceil((total + 1 - start) / 20)` of them.  The bound on `total` keeps
`start + batch_size - 1` inside `u32`. -/
theorem batchLoop20_spec (total : Nat) (h2 : total ≤ 4294967276) :
    ∀ fuel start, 1 ≤ start → total + 1 ≤ start + fuel →
      ∃ l, batchLoop 20 total fuel start = some l ∧
        (l.map (fun b => List.range' b.1 (b.2 + 1 - b.1))).flatten =
          List.range' start (total + 1 - start) ∧
        (∀ b ∈ l, b.2 + 1 - b.1 ≤ 20) ∧
        l.length = (total + 20 - start) / 20 := by
  intro fuel
  induction fuel with
  | zero =>
      intro start h1 hf
      refine ⟨[], batchLoop_gt _ _ _ _ (by omega), ?_, ?_, ?_⟩
      · have h0 : total + 1 - start = 0 := by omega
        rw [h0]
        rfl
      · intro b hb
        cases hb
      · simp only [List.length_nil]
        omega
  | succ f ih =>
      intro start h1 hf
      by_cases hs : start ≤ total
      · have he : w32 (start + 20 + 4294967295) = start + 19 := by
          unfold w32
          omega
        have hemin : min (w32 (start + 20 + 4294967295)) total =
            min (start + 19) total := by rw [he]
        set e := min (start + 19) total with hedef
        have he1 : w32 (e + 1) = e + 1 := by
          unfold w32
          omega
        obtain ⟨l, hl, hjoin, hbnd, hlen⟩ := ih (e + 1) (by omega) (by omega)
        refine ⟨(start, e) :: l, ?_, ?_, ?_, ?_⟩
        · simp only [batchLoop]
          rw [if_pos hs, hemin, he1, hl]
          rfl
        · simp only [List.map_cons, List.flatten_cons, hjoin]
          have hr := List.range'_append start (e + 1 - start) (total - e) 1
          rw [one_mul] at hr
          have hst : start + (e + 1 - start) = e + 1 := by omega
          rw [hst] at hr
          have ha1 : total - e + (e + 1 - start) = total + 1 - start := by omega
          rw [ha1] at hr
          have ha2 : total + 1 - (e + 1) = total - e := by omega
          rw [ha2]
          exact hr
        · intro b hb
          rcases List.mem_cons.mp hb with rfl | hmem
          · simp only
            omega
          · exact hbnd b hmem
        · simp only [List.length_cons, hlen]
          omega
      · refine ⟨[], batchLoop_gt _ _ _ _ (by omega), ?_, ?_, ?_⟩
        · have h0 : total + 1 - start = 0 := by omega
          rw [h0]
          rfl
        · intro b hb
          cases hb
        · simp only [List.length_nil]
          omega

/-- C2 (amended): for `1 ≤ total_pages ≤ 400` the loop runs exactly one batch
`[(1, total_pages)]`; for `400 < total_pages` (up to `u32` overflow of
`start + batch_size - 1`, i.e. `total_pages ≤ 2^32 - 20`) it runs
`ceil(total_pages / 20)` batches of at most 20 pages each, whose page ranges
concatenate, in increasing order with no gaps and no overlaps, to exactly
`[1, total_pages]`.  `total_pages = 0` runs no batch at all. -/
theorem c2_page_batching (total_pages : Nat) (h1 : 1 ≤ total_pages)
    (h2 : total_pages ≤ 4294967276) :
    ∃ l, pageBatches total_pages = some l ∧
      (l.map (fun b => List.range' b.1 (b.2 + 1 - b.1))).flatten =
        List.range' 1 total_pages ∧
      (400 < total_pages → ∀ b ∈ l, b.2 + 1 - b.1 ≤ 20) ∧
      l.length = (if 400 < total_pages then (total_pages + 19) / 20 else 1) ∧
      (total_pages ≤ 400 → l = [(1, total_pages)]) := by
  by_cases h400 : 400 < total_pages
  · obtain ⟨l, hl, hjoin, hbnd, hlen⟩ :=
      batchLoop20_spec total_pages h2 (total_pages + 1) 1 (by omega) (by omega)
    refine ⟨l, ?_, ?_, fun _ => hbnd, ?_, fun hle => absurd hle (by omega)⟩
    · simp only [pageBatches]
      rw [if_pos h400]
      exact hl
    · have hh : total_pages + 1 - 1 = total_pages := by omega
      rw [hh] at hjoin
      exact hjoin
    · rw [hlen, if_pos h400]
      omega
  · refine ⟨[(1, total_pages)], ?_, ?_, fun hgt => absurd hgt h400, ?_, fun _ => rfl⟩
    · simp only [pageBatches]
      rw [if_neg h400]
      simp only [batchLoop]
      rw [if_pos (by omega)]
      have he : min (w32 (1 + total_pages + 4294967295)) total_pages =
          total_pages := by
        unfold w32
        omega
      rw [he]
      have he1 : w32 (total_pages + 1) = total_pages + 1 := by
        unfold w32
        omega
      rw [he1, batchLoop_gt _ _ _ _ (by omega)]
      rfl
    · have hh : total_pages + 1 - 1 = total_pages := by omega
      simp [hh]
    · rw [if_neg h400]
      rfl

/-- Witness for C2 at `total_pages = 401`: both hypotheses hold and the
batching conclusion follows. -/
theorem c2_page_batching_witness :
    1 ≤ 401 ∧
    ∃ l, pageBatches 401 = some l ∧
      (l.map (fun b => List.range' b.1 (b.2 + 1 - b.1))).flatten =
        List.range' 1 401 ∧
      (400 < 401 → ∀ b ∈ l, b.2 + 1 - b.1 ≤ 20) ∧
      l.length = (if 400 < 401 then (401 + 19) / 20 else 1) ∧
      (401 ≤ 400 → l = [(1, 401)]) :=
  ⟨by decide, c2_page_batching 401 (by decide) (by decide)⟩

/-- Counterexample to C2 as stated: for `total_pages = 0` (which is `≤ 400`)
the loop body never runs, so there are zero batches, not "exactly one batch
spanning all pages". -/
theorem c2_counterexample :
    pageBatches 0 = some [] ∧ ([] : List (Nat × Nat)).length ≠ 1 := by
  exact ⟨rfl, by decide⟩

/-! ## C1 — stop before the next checkpoint -/

/-- Every event of the batch/page part of the trace is a checkpoint or an
in-loop progress update; the snapshot write and the completion update only
come after the loop. -/
theorem batchEvents_mem (content : Nat → Bool) (bs : List (Nat × Nat)) :
    ∀ e ∈ bs.flatMap (batchEvents content),
      e = AEvent.ckpt ∨ e = AEvent.upd := by
  intro e he
  rw [List.mem_flatMap] at he
  obtain ⟨b, -, hmem⟩ := he
  simp only [batchEvents, List.mem_cons] at hmem
  rcases hmem with rfl | rfl | hmem
  · exact Or.inl rfl
  · exact Or.inr rfl
  · rw [List.mem_flatMap] at hmem
    obtain ⟨p, -, hp⟩ := hmem
    simp only [pageEvents, List.mem_cons] at hp
    rcases hp with rfl | hp
    · exact Or.inl rfl
    · by_cases hc : content p
      · rw [if_pos hc, List.mem_singleton] at hp
        exact Or.inr hp
      · rw [if_neg hc] at hp
        cases hp

/-- Before any stop request, running checkpoint/update events leaves the
snapshot untouched and the stop flag clear. -/
theorem runEvents_no_stop (evs : List AEvent) :
    ∀ s : RunState, s.should_stop = false →
      (∀ e ∈ evs, e = AEvent.ckpt ∨ e = AEvent.upd) →
      (runEvents evs s).snapshot_written = s.snapshot_written ∧
      (runEvents evs s).should_stop = false := by
  induction evs with
  | nil =>
      intro s h _
      exact ⟨rfl, h⟩
  | cons e rest ih =>
      intro s h hall
      rcases hall e (List.mem_cons_self _ _) with rfl | rfl
      · simp only [runEvents]
        rw [if_neg (by rw [h]; simp)]
        exact ih s h (fun e he => hall e (List.mem_cons_of_mem _ he))
      · simp only [runEvents]
        exact ih { s with status := "analyzing" } h
          (fun e he => hall e (List.mem_cons_of_mem _ he))

/-- After a stop request, a run whose remaining events start with
checkpoint/update events including at least one checkpoint halts at the first
checkpoint: nothing after it runs, the snapshot state is unchanged, and the
status is either untouched or `"analyzing"` (when an update ran in between). -/
theorem runEvents_stopped (tail : List AEvent) :
    ∀ (front : List AEvent) (s : RunState), s.should_stop = true →
      AEvent.ckpt ∈ front →
      (∀ e ∈ front, e = AEvent.ckpt ∨ e = AEvent.upd) →
      (runEvents (front ++ tail) s).snapshot_written = s.snapshot_written ∧
      ((runEvents (front ++ tail) s).status = s.status ∨
        (runEvents (front ++ tail) s).status = "analyzing") := by
  intro front
  induction front with
  | nil =>
      intro s _ hmem _
      cases hmem
  | cons e rest ih =>
      intro s hstop hmem hall
      rcases hall e (List.mem_cons_self _ _) with rfl | rfl
      · simp only [List.cons_append, runEvents]
        rw [if_pos hstop]
        exact ⟨rfl, Or.inl rfl⟩
      · have hmem' : AEvent.ckpt ∈ rest := by
          rcases List.mem_cons.mp hmem with h | h
          · cases h
          · exact h
        simp only [List.cons_append, runEvents]
        obtain ⟨hw, hst⟩ := ih { s with status := "analyzing" } hstop hmem'
          (fun e he => hall e (List.mem_cons_of_mem _ he))
        refine ⟨hw, ?_⟩
        rcases hst with h | h
        · exact Or.inr h
        · exact Or.inr h

/-- C1 (amended): if `stop_analysis` runs after `k` events, and the remaining
trace still contains a cancellation checkpoint (batch entry or page entry),
then the run returns at the first such checkpoint: the result snapshot
(`all_questions.json`) is never written and the status is never set to
`"completed"`.  The status is `"stopped"` when the stop lands directly in
front of a checkpoint, but an `update_progress(_, "analyzing", ...)` executing
between the stop request and that checkpoint overwrites the status back to
`"analyzing"`. -/
theorem c1_stop_before_checkpoint (total_pages : Nat) (content : Nat → Bool)
    (k : Nat)
    (h : AEvent.ckpt ∈ (analysisEvents total_pages content).drop k) :
    (runWithStopAt total_pages content k).snapshot_written = false ∧
    (runWithStopAt total_pages content k).status ≠ "completed" ∧
    (((analysisEvents total_pages content).drop k).head? = some AEvent.ckpt →
      (runWithStopAt total_pages content k).status = "stopped") := by
  set body := ((pageBatches total_pages).getD []).flatMap (batchEvents content)
    with hbody
  have hevs : analysisEvents total_pages content =
      body ++ [AEvent.write, AEvent.complete] := rfl
  have hbodyall : ∀ e ∈ body, e = AEvent.ckpt ∨ e = AEvent.upd :=
    batchEvents_mem content _
  have hk : k ≤ body.length := by
    by_contra hk
    push_neg at hk
    rw [hevs, List.drop_append_eq_append_drop] at h
    rw [List.drop_eq_nil_of_le (by omega), List.nil_append] at h
    have h2 := List.drop_subset _ _ h
    simp at h2
  have htake : (analysisEvents total_pages content).take k = body.take k := by
    rw [hevs, List.take_append_eq_append_take]
    have h0 : k - body.length = 0 := by omega
    rw [h0]
    simp
  have hdrop : (analysisEvents total_pages content).drop k =
      body.drop k ++ [AEvent.write, AEvent.complete] := by
    rw [hevs, List.drop_append_eq_append_drop]
    have h0 : k - body.length = 0 := by omega
    rw [h0, List.drop_zero]
  obtain ⟨hw0, hs0⟩ := runEvents_no_stop
    ((analysisEvents total_pages content).take k) initRunState rfl
    (fun e he => hbodyall e (by rw [htake] at he; exact List.take_subset _ _ he))
  have hmemfront : AEvent.ckpt ∈ body.drop k := by
    rw [hdrop] at h
    rcases List.mem_append.mp h with hin | hin
    · exact hin
    · simp at hin
  obtain ⟨hw1, hst1⟩ := runEvents_stopped [AEvent.write, AEvent.complete]
    (body.drop k)
    (stop_analysis (runEvents ((analysisEvents total_pages content).take k)
      initRunState))
    rfl hmemfront (fun e he => hbodyall e (List.drop_subset _ _ he))
  have hrun : runWithStopAt total_pages content k =
      runEvents (body.drop k ++ [AEvent.write, AEvent.complete])
        (stop_analysis (runEvents
          ((analysisEvents total_pages content).take k) initRunState)) := by
    simp only [runWithStopAt]
    rw [hdrop]
  refine ⟨?_, ?_, ?_⟩
  · rw [hrun, hw1]
    exact hw0
  · rw [hrun]
    rcases hst1 with hsts | hsts
    · rw [hsts]
      exact (by decide : ("stopped" : String) ≠ "completed")
    · rw [hsts]
      exact (by decide : ("analyzing" : String) ≠ "completed")
  · intro hhead
    rw [hdrop] at hhead
    cases hbd : body.drop k with
    | nil =>
        rw [hbd] at hhead
        simp at hhead
    | cons e rest =>
        rw [hbd] at hhead
        simp only [List.cons_append, List.head?_cons, Option.some.injEq] at hhead
        subst hhead
        rw [hrun, hbd]
        simp only [List.cons_append, runEvents]
        have hcond : (stop_analysis (runEvents
            ((analysisEvents total_pages content).take k)
            initRunState)).should_stop = true := rfl
        rw [if_pos hcond]
        rfl

/-- Witness for C1: stopping before the very first event (`k = 0`, next event
is the batch-entry checkpoint) leaves the snapshot unwritten and the status
`"stopped"`. -/
theorem c1_stop_before_checkpoint_witness :
    (runWithStopAt 2 (fun _ => false) 0).snapshot_written = false ∧
    (runWithStopAt 2 (fun _ => false) 0).status = "stopped" :=
  ⟨(c1_stop_before_checkpoint 2 (fun _ => false) 0 (by decide)).1,
   (c1_stop_before_checkpoint 2 (fun _ => false) 0 (by decide)).2.2 (by decide)⟩

/-- Counterexample to C1 as stated: a 2-page run, stop requested after the
first (batch-entry) checkpoint and before the batch progress update.  The next
checkpoint (page entry) is still ahead — the stop arrives before the loop
reaches it — yet the final status is `"analyzing"`, not `"stopped"`: the batch
`update_progress(_, "analyzing", ...)` ran after `stop_analysis` had set
`"stopped"`, and the early return at the page checkpoint never restores it. -/
theorem c1_counterexample :
    AEvent.ckpt ∈ (analysisEvents 2 (fun _ => false)).drop 1 ∧
    (runWithStopAt 2 (fun _ => false) 1).snapshot_written = false ∧
    (runWithStopAt 2 (fun _ => false) 1).status = "analyzing" ∧
    ("analyzing" : String) ≠ "stopped" := by
  decide

end BooQ
